import Mathlib

/-!
Shallow embedding of the Shamir secret-sharing recovery program
(`abc.js`, the exact BigInt implementation) and verification of its
specification claims.

JavaScript `BigInt` arithmetic is exact integer arithmetic; the JS `%`
operator is truncated remainder (`Int.tmod`) and `/` on BigInt is
truncated division (`Int.tdiv`).  Fallible operations (JS `throw`)
are modelled with `Except` / `Option`.
-/

namespace Hashira

/-- The digit alphabet from the source: `'0123456789abcdefghijklmnopqrstuvwxyz'`. -/
def digitsAlphabet : List Char := "0123456789abcdefghijklmnopqrstuvwxyz".toList

/-- JS `digits.indexOf(char)`: the first index of `c` in the alphabet, or `-1`
when absent. -/
def jsIndexOf (c : Char) : ℤ :=
  match digitsAlphabet.findIdx? (fun d => d = c) with
  | some i => (i : ℤ)
  | none => -1

/-- The loop body of `parseValueBigInt`: look the character up in the digit
alphabet, throw when `digit < 0n`, else `result = result * base + digit`.
(Note the source does *not* reject digits whose value is `≥ base`.) -/
def parseStep (base result : ℤ) (char : Char) : Except String ℤ :=
  let digit := jsIndexOf char
  if digit < 0 then
    Except.error ("Invalid digit " ++ char.toString ++ " for base " ++ toString base)
  else
    Except.ok (result * base + digit)

/-- Embedding of `parseValueBigInt(base, value)` from `abc.js`:
lowercase the string, then fold `parseStep` over its characters
(left to right, most significant first). -/
def parseValueBigInt (base : ℤ) (value : String) : Except String ℤ :=
  (value.toList.map Char.toLower).foldlM (parseStep base) 0

/-- The `while (a > 1n)` loop of `modInverse` from `abc.js`, with state
`(a, m, x0, x1)`, recursing structurally on an iteration bound.  A division
by zero (JS `RangeError` when `m` is `0n` while the loop is still running)
is modelled by `none`. -/
def modInverseGoF : ℕ → ℤ → ℤ → ℤ → ℤ → Option ℤ
  | 0, _, _, _, x1 => some x1
  | fuel + 1, a, m, x0, x1 =>
    if 1 < a then
      if m = 0 then none
      else modInverseGoF fuel m (a.tmod m) (x1 - a.tdiv m * x0) x0
    else some x1

/-- The `while (a > 1n)` loop of `modInverse` from `abc.js`.  The iteration
bound `m.natAbs + 1` is never exhausted, because `|a tmod m|` strictly
decreases in the second position; `modInverseGo_unfold` below recovers the
literal loop equation. -/
def modInverseGo (a m x0 x1 : ℤ) : Option ℤ :=
  modInverseGoF (m.natAbs + 1) a m x0 x1

/-- Embedding of `modInverse(a, m)` from `abc.js` (extended Euclidean
algorithm, with the final coefficient normalized into `[0, m)` by a single
conditional `+ m0`). -/
def modInverse (a m : ℤ) : Option ℤ :=
  if m = 1 then some 0
  else (modInverseGo a m 0 1).map (fun x1 => if x1 < 0 then x1 + m else x1)

/-- The numerator factor `(BigInt(targetX) - xj + primeMod) % primeMod`
of `lagrangeInterpolateBigInt`. -/
def jsNum (targetX xj primeMod : ℤ) : ℤ := (targetX - xj + primeMod).tmod primeMod

/-- The denominator `(xi - xj + primeMod) % primeMod` handed to `modInverse`
by `lagrangeInterpolateBigInt`. -/
def jsDenom (xi xj primeMod : ℤ) : ℤ := (xi - xj + primeMod).tmod primeMod

/-- The inner `for (j …)` loop of `lagrangeInterpolateBigInt`: accumulates
`term = (term * num % primeMod) * modInverse(den, primeMod) % primeMod`
over the indices `js`, skipping `j = i`. -/
def lagrangeTermGo (xPoints : List ℤ) (xi targetX primeMod : ℤ) (i : ℕ) :
    List ℕ → ℤ → Option ℤ
  | [], term => some term
  | j :: js, term =>
    if i = j then lagrangeTermGo xPoints xi targetX primeMod i js term
    else
      let xj := xPoints.getD j 0
      let num := jsNum targetX xj primeMod
      let den := jsDenom xi xj primeMod
      match modInverse den primeMod with
      | none => none
      | some inv =>
        lagrangeTermGo xPoints xi targetX primeMod i js
          (((term * num).tmod primeMod * inv).tmod primeMod)

/-- The outer `for (i …)` loop of `lagrangeInterpolateBigInt`:
`total = (total + term) % primeMod`. -/
def lagrangeGo (xPoints yPoints : List ℤ) (targetX primeMod : ℤ) :
    List ℕ → ℤ → Option ℤ
  | [], total => some total
  | i :: is, total =>
    let xi := xPoints.getD i 0
    let yi := yPoints.getD i 0
    match lagrangeTermGo xPoints xi targetX primeMod i (List.range xPoints.length) yi with
    | none => none
    | some term => lagrangeGo xPoints yPoints targetX primeMod is ((total + term).tmod primeMod)

/-- Embedding of `lagrangeInterpolateBigInt(xPoints, yPoints, targetX, primeMod)`
from `abc.js`. -/
def lagrangeInterpolateBigInt (xPoints yPoints : List ℤ) (targetX primeMod : ℤ) : Option ℤ :=
  lagrangeGo xPoints yPoints targetX primeMod (List.range xPoints.length) 0

/-- A share as it appears in the input data: a base and an encoded value. -/
structure Share where
  base : ℤ
  value : String
deriving DecidableEq

/-- The prime modulus `2n ** 521n - 1n` used by `recoverSecret`. -/
def PRIME : ℤ := 2 ^ 521 - 1

/-- The index-sorting step of `recoverSecret`:
`Object.keys(data).filter(k => k !== 'keys').sort((a, b) => parseInt(a) - parseInt(b))`.
Shares are modelled as (index, share) pairs, sorted by index ascending (a
stable comparison sort, as the JS engine sort is). -/
def sortShares (shares : List (ℤ × Share)) : List (ℤ × Share) :=
  List.insertionSort (fun s t => s.1 ≤ t.1) shares

/-- The share-selection step of `recoverSecret`: sort the indices numerically
ascending and `.slice(0, k)`. -/
def selectShares (shares : List (ℤ × Share)) (k : ℕ) : List (ℤ × Share) :=
  (sortShares shares).take k

/-- Decoding of one selected share inside `recoverSecret`:
`parseValueBigInt(parseInt(data[key].base, 10), data[key].value)`. -/
def decodeShare (s : ℤ × Share) : Except String ℤ :=
  parseValueBigInt s.2.base s.2.value

/-- Embedding of `recoverSecret(data)` from `abc.js`: select the first `k`
shares by ascending index, decode each one (a decode failure propagates),
and interpolate at `x = 0` modulo `PRIME = 2^521 - 1`.  The source has no
check that at least `k` shares are present: `.slice(0, k)` silently yields
fewer elements.  A JS `RangeError` escaping `modInverse` is modelled by the
final `error`. -/
def recoverSecret (shares : List (ℤ × Share)) (k : ℕ) : Except String ℤ := do
  let sel := selectShares shares k
  let yPoints ← sel.mapM decodeShare
  let xPoints := sel.map Prod.fst
  match lagrangeInterpolateBigInt xPoints yPoints 0 PRIME with
  | some c => Except.ok c
  | none => Except.error "Division by zero"

/-- Horner evaluation of an integer polynomial given by its coefficient list
(constant term first).  This is the specification-side notion of "the
polynomial `P` of degree at most `k-1`". -/
def evalPoly : List ℤ → ℤ → ℤ
  | [], _ => 0
  | c :: cs, x => c + x * evalPoly cs x

/-- The polynomial over `ZMod p` with the given integer coefficient list
(constant term first); the image of `evalPoly`'s coefficients in the field. -/
noncomputable def polyOfList (p : ℕ) : List ℤ → Polynomial (ZMod p)
  | [] => 0
  | c :: cs => Polynomial.C ((c : ℤ) : ZMod p) + Polynomial.X * polyOfList p cs

/-- The product of all Lagrange basis factors for node `i` evaluated at `0`
over `ZMod p`: the mathematical value computed by the inner loop of
`lagrangeInterpolateBigInt`. -/
def termProd (p : ℕ) (xs : List ℤ) (i : ℕ) : ZMod p :=
  ((List.range xs.length).map (fun j => if j = i then (1 : ZMod p)
    else (0 - ((xs.getD j 0 : ℤ) : ZMod p)) *
      (((xs.getD i 0 : ℤ) : ZMod p) - ((xs.getD j 0 : ℤ) : ZMod p))⁻¹)).prod

/-! ### Correctness of the extended Euclidean loop -/

/-- Absolute value of a truncated remainder. -/
theorem natAbs_tmod_eq (a b : ℤ) : (a.tmod b).natAbs = a.natAbs % b.natAbs := by
  cases a <;> cases b <;> simp [Int.tmod] <;> norm_cast

/-- One Euclidean step preserves the gcd (stated for truncated remainder,
with no sign conditions). -/
theorem gcd_tmod_step (a m : ℤ) : Int.gcd m (a.tmod m) = Int.gcd a m := by
  unfold Int.gcd
  rw [natAbs_tmod_eq, Nat.gcd_comm a.natAbs m.natAbs, Nat.gcd_rec m.natAbs a.natAbs,
    Nat.gcd_comm]

/-- Truncated remainder in terms of truncated division. -/
theorem tmod_eq_sub (a m : ℤ) : a.tmod m = a - m * a.tdiv m := by
  have h := Int.tdiv_add_tmod a m
  linarith

/-- The truncated remainder strictly shrinks in absolute value. -/
theorem natAbs_tmod_lt (a m : ℤ) (hm : m ≠ 0) : (a.tmod m).natAbs < m.natAbs := by
  rw [natAbs_tmod_eq]
  exact Nat.mod_lt _ (Int.natAbs_pos.mpr hm)

/-- The iteration bound of the Euclidean loop is irrelevant as long as it
exceeds `|m|`. -/
theorem modInverseGoF_congr :
    ∀ f1 f2 : ℕ, ∀ a m x0 x1 : ℤ, m.natAbs < f1 → m.natAbs < f2 →
      modInverseGoF f1 a m x0 x1 = modInverseGoF f2 a m x0 x1 := by
  intro f1
  induction f1 with
  | zero => intro f2 a m x0 x1 h1; omega
  | succ f1 ih =>
    intro f2 a m x0 x1 h1 h2
    cases f2 with
    | zero => omega
    | succ f2 =>
      show (if 1 < a then if m = 0 then none
          else modInverseGoF f1 m (a.tmod m) (x1 - a.tdiv m * x0) x0 else some x1)
        = (if 1 < a then if m = 0 then none
          else modInverseGoF f2 m (a.tmod m) (x1 - a.tdiv m * x0) x0 else some x1)
      by_cases ha : 1 < a
      · by_cases hm : m = 0
        · simp [ha, hm]
        · have hlt := natAbs_tmod_lt a m hm
          simp only [if_pos ha, if_neg hm]
          exact ih f2 m (a.tmod m) _ _ (by omega) (by omega)
      · simp [ha]

/-- The defining equation of the `while (a > 1n)` loop: `modInverseGo`
satisfies the literal loop unfolding of the source. -/
theorem modInverseGo_unfold (a m x0 x1 : ℤ) :
    modInverseGo a m x0 x1 =
      if 1 < a then
        if m = 0 then none
        else modInverseGo m (a.tmod m) (x1 - a.tdiv m * x0) x0
      else some x1 := by
  show modInverseGoF (m.natAbs + 1) a m x0 x1 = _
  by_cases ha : 1 < a
  · by_cases hm : m = 0
    · simp [modInverseGoF, ha, hm]
    · rw [if_pos ha, if_neg hm]
      show _ = modInverseGoF ((a.tmod m).natAbs + 1) m (a.tmod m) (x1 - a.tdiv m * x0) x0
      rw [show modInverseGoF (m.natAbs + 1) a m x0 x1
          = modInverseGoF m.natAbs m (a.tmod m) (x1 - a.tdiv m * x0) x0 from by
        simp [modInverseGoF, ha, hm]]
      exact modInverseGoF_congr m.natAbs ((a.tmod m).natAbs + 1) m (a.tmod m) _ _
        (natAbs_tmod_lt a m hm) (by omega)
  · simp [modInverseGoF, ha]

/-- Invariant-based specification of the `while` loop of `modInverse`.
`A` is the original first argument and `M` the original modulus; the loop
state `(a, m, x0, x1)` keeps `m < a`, the gcd of the original pair, a
Bézout-coefficient bound, and the two congruences `x1·A ≡ a`, `x0·A ≡ m`
modulo `M`.  On exit the loop yields the Bézout coefficient of `A`,
bounded strictly by `M` in absolute value. -/
theorem modInverseGo_spec (A M : ℤ) (hM : 1 ≤ M) :
    ∀ a m x0 x1 : ℤ, 0 ≤ m → m < a →
      Int.gcd a m = 1 →
      |x0| * a + |x1| * m ≤ M →
      (m = 0 → 2 * |x1| ≤ M) →
      Int.ModEq M (x1 * A) a →
      Int.ModEq M (x0 * A) m →
      ∃ r, modInverseGo a m x0 x1 = some r ∧ |r| < M ∧ Int.ModEq M (r * A) 1 := by
  suffices h : ∀ n : ℕ, ∀ a m x0 x1 : ℤ, m.natAbs ≤ n → 0 ≤ m → m < a →
      Int.gcd a m = 1 →
      |x0| * a + |x1| * m ≤ M →
      (m = 0 → 2 * |x1| ≤ M) →
      Int.ModEq M (x1 * A) a →
      Int.ModEq M (x0 * A) m →
      ∃ r, modInverseGo a m x0 x1 = some r ∧ |r| < M ∧ Int.ModEq M (r * A) 1 by
    intro a m x0 x1
    exact h m.natAbs a m x0 x1 le_rfl
  intro n
  induction n using Nat.strong_induction_on with
  | _ n ih =>
  intro a m x0 x1 hn hm0 hma hgcd hdet hb hc1 hc0
  by_cases ha : 1 < a
  case neg =>
    have ha1 : a = 1 := by omega
    have hm1 : m = 0 := by omega
    refine ⟨x1, ?_, ?_, ?_⟩
    · rw [modInverseGo_unfold, if_neg ha]
    · have := hb hm1
      have := abs_nonneg x1
      omega
    · rw [ha1] at hc1
      exact hc1
  case pos =>
  by_cases hm : m = 0
  case pos =>
    subst hm
    rw [Int.gcd_zero_right] at hgcd
    omega
  case neg =>
    have hmpos : 0 < m := lt_of_le_of_ne hm0 (Ne.symm hm)
    have hapos : (0:ℤ) < a := by omega
    set q := a.tdiv m with hq
    have hqnn : 0 ≤ q := Int.tdiv_nonneg (le_of_lt hapos) hm0
    have htmod : a.tmod m = a - m * q := tmod_eq_sub a m
    have htnn : 0 ≤ a.tmod m := Int.tmod_nonneg m (le_of_lt hapos)
    have htlt : a.tmod m < m := Int.tmod_lt_of_pos a hmpos
    -- propagate the determinant bound
    have habs : |x1 - q * x0| ≤ |x1| + q * |x0| := by
      calc |x1 - q * x0| ≤ |x1| + |q * x0| := by
            have := abs_add x1 (-(q * x0))
            simpa [sub_eq_add_neg, abs_neg] using this
        _ = |x1| + q * |x0| := by rw [abs_mul, abs_of_nonneg hqnn]
    have hdet' : |x1 - q * x0| * m + |x0| * a.tmod m ≤ M := by
      have h1 : |x1 - q * x0| * m ≤ (|x1| + q * |x0|) * m :=
        mul_le_mul_of_nonneg_right habs (le_of_lt hmpos)
      have h2 : (|x1| + q * |x0|) * m + |x0| * (a - m * q) = |x0| * a + |x1| * m := by ring
      rw [htmod]
      nlinarith [h1, h2, hdet]
    -- propagate the exit bound
    have hb' : a.tmod m = 0 → 2 * |x0| ≤ M := by
      intro ht0
      have hdvd : m ∣ a := by
        refine ⟨q, ?_⟩
        omega
      have hm1 : m = 1 := by
        have h1 : (m:ℤ) ∣ (Int.gcd a m : ℤ) := Int.dvd_gcd hdvd dvd_rfl
        rw [hgcd] at h1
        exact Int.eq_one_of_dvd_one hm0 (by exact_mod_cast h1)
      have : |x0| * a + |x1| * 1 ≤ M := by rw [← hm1]; exact hdet
      nlinarith [abs_nonneg x1, abs_nonneg x0]
    -- propagate the congruences
    have hc0' : Int.ModEq M ((x1 - q * x0) * A) (a.tmod m) := by
      rw [htmod]
      calc (x1 - q * x0) * A = x1 * A - q * (x0 * A) := by ring
        _ ≡ a - q * m [ZMOD M] := hc1.sub (hc0.mul_left q)
        _ = a - m * q := by ring
    have hgcd' : Int.gcd m (a.tmod m) = 1 := by rw [gcd_tmod_step]; exact hgcd
    have hcall : (a.tmod m).natAbs < n := by
      have := natAbs_tmod_lt a m hm
      omega
    obtain ⟨r, hr, hrb, hrc⟩ := ih (a.tmod m).natAbs hcall m (a.tmod m) (x1 - q * x0) x0
      le_rfl htnn htlt hgcd' hdet' hb' hc0 hc0'
    refine ⟨r, ?_, hrb, hrc⟩
    rw [modInverseGo_unfold]
    simp only [if_pos ha, if_neg hm]
    exact hr

/-- Truncated remainder of a small nonnegative number is the number itself. -/
theorem tmod_eq_self (a M : ℤ) (h0 : 0 ≤ a) (h1 : a < M) : a.tmod M = a := by
  rw [Int.tmod_eq_emod h0 (by omega)]
  exact Int.emod_eq_of_lt h0 h1

/-- Specification of `modInverse` for coprime inputs `0 < a < M`: it
returns `some r` with `0 ≤ r < M` and `a * r ≡ 1 (mod M)`. -/
theorem modInverse_spec (a M : ℤ) (h0 : 0 < a) (haM : a < M) (hgcd : Int.gcd a M = 1) :
    ∃ r, modInverse a M = some r ∧ 0 ≤ r ∧ r < M ∧ Int.ModEq M (a * r) 1 := by
  have hM1 : 1 ≤ M := by omega
  have hMne1 : M ≠ 1 := by omega
  unfold modInverse
  rw [if_neg hMne1]
  by_cases ha1 : a = 1
  · subst ha1
    have hgo : modInverseGo 1 M 0 1 = some 1 := by rw [modInverseGo_unfold]; norm_num
    refine ⟨1, ?_, by norm_num, by omega, by simpa using Int.ModEq.refl (n := M) 1⟩
    rw [hgo]
    norm_num
  · have ha2 : 1 < a := by omega
    have hstep : modInverseGo a M 0 1 = modInverseGo M a 1 0 := by
      rw [modInverseGo_unfold]
      have hMne : M ≠ 0 := by omega
      rw [if_pos ha2, if_neg hMne]
      have e1 : a.tmod M = a := tmod_eq_self a M (by omega) haM
      have e2 : (1 : ℤ) - a.tdiv M * 0 = 1 := by ring
      rw [e1, e2]
    have hspec := modInverseGo_spec a M hM1 M a 1 0
      (by omega) haM (by rw [Int.gcd_comm]; exact hgcd)
      (by simp)
      (by intro h; omega)
      (by
        have h1 : Int.ModEq M M 0 := Int.modEq_zero_iff_dvd.mpr dvd_rfl
        simpa using h1.symm)
      (by simp)
    obtain ⟨r, hr, hrb, hrc⟩ := hspec
    rw [hstep, hr]
    have hrbd : -M < r ∧ r < M := by
      rcases abs_cases r with ⟨h, _⟩ | ⟨h, _⟩ <;> omega
    by_cases hneg : r < 0
    · refine ⟨r + M, by simp [hneg], by omega, by omega, ?_⟩
      have h1 : Int.ModEq M (a * (r + M)) (a * r) :=
        (Int.modEq_iff_dvd.mpr ⟨-a, by ring⟩)
      exact h1.trans (by rw [mul_comm]; exact hrc)
    · exact ⟨r, by simp [hneg], by omega, by omega, by rw [mul_comm]; exact hrc⟩

/-- A positive integer strictly below a prime is coprime to it. -/
theorem gcd_eq_one_of_prime (p : ℕ) (hp : p.Prime) (a : ℤ) (h0 : 0 < a) (hap : a < (p : ℤ)) :
    Int.gcd a (p : ℤ) = 1 := by
  have hlt : a.natAbs < p := by omega
  have hpos : 0 < a.natAbs := by omega
  have hnd : ¬ p ∣ a.natAbs := fun hdvd => by
    have := Nat.le_of_dvd hpos hdvd
    omega
  have hco : Nat.Coprime p a.natAbs := (Nat.Prime.coprime_iff_not_dvd hp).mpr hnd
  unfold Int.gcd
  rw [Int.natAbs_ofNat]
  exact Nat.Coprime.gcd_eq_one (Nat.Coprime.symm hco)

/-- `modInverse` with a prime modulus: for `0 < a < p` it returns the
inverse of `a` normalized into `[0, p)`. -/
theorem modInverse_prime_spec (p : ℕ) (hp : p.Prime) (a : ℤ) (h0 : 0 < a) (hap : a < (p : ℤ)) :
    ∃ r, modInverse a (p : ℤ) = some r ∧ 0 ≤ r ∧ r < (p : ℤ) ∧ Int.ModEq (p : ℤ) (a * r) 1 :=
  modInverse_spec a (p : ℤ) h0 hap (gcd_eq_one_of_prime p hp a h0 hap)

/-! ### Base decoding -/

/-- `Nat.ofDigits` over `ℤ` distributes over list append. -/
theorem ofDigits_append_int (b : ℤ) (l1 l2 : List ℕ) :
    Nat.ofDigits b (l1 ++ l2) = Nat.ofDigits b l1 + b ^ l1.length * Nat.ofDigits b l2 := by
  induction l1 with
  | nil => simp [Nat.ofDigits]
  | cons hd tl ih =>
    rw [List.cons_append]
    show (hd : ℤ) + b * Nat.ofDigits b (tl ++ l2) = _
    rw [ih, List.length_cons, pow_succ]
    show _ = (hd : ℤ) + b * Nat.ofDigits b tl + b ^ tl.length * b * Nat.ofDigits b l2
    ring

/-- The left-to-right accumulation `result = result * base + digit` computes
the positional (little-endian `Nat.ofDigits` of the reversed digit list)
value of the string, for any accumulator. -/
theorem foldlM_parseStep (b : ℤ) :
    ∀ (cs : List Char) (acc : ℤ), (∀ c ∈ cs, 0 ≤ jsIndexOf c) →
      cs.foldlM (parseStep b) acc =
        Except.ok (acc * b ^ cs.length +
          Nat.ofDigits b ((cs.map (fun c => (jsIndexOf c).toNat)).reverse)) := by
  intro cs
  induction cs with
  | nil =>
    intro acc _
    show Except.ok acc = _
    simp [Nat.ofDigits]
  | cons c cs ih =>
    intro acc hd
    have hc : 0 ≤ jsIndexOf c := hd c (by simp)
    have hstep : parseStep b acc c = Except.ok (acc * b + jsIndexOf c) := by
      unfold parseStep
      rw [if_neg (by omega)]
    rw [List.foldlM_cons, hstep]
    show cs.foldlM (parseStep b) (acc * b + jsIndexOf c) = _
    rw [ih (acc * b + jsIndexOf c) (fun x hx => hd x (by simp [hx]))]
    congr 1
    rw [List.map_cons, List.reverse_cons, ofDigits_append_int]
    have h1 : Nat.ofDigits b [(jsIndexOf c).toNat] = ((jsIndexOf c).toNat : ℤ) := by
      show ((jsIndexOf c).toNat : ℤ) + b * 0 = _
      ring
    rw [h1, Int.toNat_of_nonneg hc, List.length_reverse, List.length_map,
      List.length_cons, pow_succ]
    ring

/-! ### The interpolation loops over `ZMod p` -/

/-- With both nodes normalized into `[0, p)` and distinct, the denominator
`(xi - xj + p) % p` handed to `modInverse` lies strictly between `0` and `p`. -/
theorem jsDenom_bounds (p : ℕ) (xi xj : ℤ) (h1 : 0 ≤ xi) (h2 : xi < (p : ℤ))
    (h3 : 0 ≤ xj) (h4 : xj < (p : ℤ)) (hne : xi ≠ xj) :
    0 < jsDenom xi xj (p : ℤ) ∧ jsDenom xi xj (p : ℤ) < (p : ℤ) := by
  unfold jsDenom
  have hv : 0 ≤ xi - xj + (p : ℤ) := by omega
  rw [Int.tmod_eq_emod hv (by omega)]
  by_cases hlt : xi - xj + (p : ℤ) < (p : ℤ)
  · rw [Int.emod_eq_of_lt hv hlt]
    omega
  · have h5 : (xi - xj + (p : ℤ)) % (p : ℤ) = (xi - xj) % (p : ℤ) := by
      have h6 := Int.add_mul_emod_self_left (a := xi - xj) (b := (p : ℤ)) (c := 1)
      rw [mul_one] at h6
      exact h6
    rw [h5, Int.emod_eq_of_lt (by omega) (by omega)]
    omega

/-- The integer returned by `modInverse` for a denominator in `(0, p)` casts
to the field inverse of the denominator in `ZMod p`. -/
theorem modInverse_cast_inv (p : ℕ) (hp : p.Prime) (den : ℤ) (h0 : 0 < den)
    (hdp : den < (p : ℤ)) :
    ∃ r, modInverse den (p : ℤ) = some r ∧ 0 ≤ r ∧ r < (p : ℤ) ∧
      ((r : ℤ) : ZMod p) = ((den : ℤ) : ZMod p)⁻¹ := by
  haveI : Fact p.Prime := ⟨hp⟩
  obtain ⟨r, hr, h1, h2, h3⟩ := modInverse_prime_spec p hp den h0 hdp
  refine ⟨r, hr, h1, h2, ?_⟩
  have h4 : ((den * r : ℤ) : ZMod p) = ((1 : ℤ) : ZMod p) :=
    (ZMod.intCast_eq_intCast_iff _ _ _).mpr h3
  push_cast at h4
  exact eq_inv_of_mul_eq_one_right h4

/-- Casting an integer `tmod p` into `ZMod p` is the same as casting the
integer itself. -/
theorem intCast_tmod (p : ℕ) (a : ℤ) : ((a.tmod (p : ℤ) : ℤ) : ZMod p) = (a : ZMod p) := by
  rw [tmod_eq_sub a (p : ℤ)]
  push_cast
  simp

/-- Specification of the inner loop of `lagrangeInterpolateBigInt`: over a
prime modulus, with all nodes normalized and distinct, it succeeds, keeps the
accumulator in range, and computes the product of the Lagrange basis factors
in `ZMod p`. -/
theorem lagrangeTermGo_spec (p : ℕ) (hp : p.Prime) (xs : List ℤ)
    (hx : ∀ x ∈ xs, 0 ≤ x ∧ x < (p : ℤ)) (i : ℕ) (hi : i < xs.length)
    (hneq : ∀ j, j < xs.length → j ≠ i → xs.getD j 0 ≠ xs.getD i 0) :
    ∀ js : List ℕ, (∀ j ∈ js, j < xs.length) → ∀ acc : ℤ, 0 ≤ acc →
      ∃ t, lagrangeTermGo xs (xs.getD i 0) 0 (p : ℤ) i js acc = some t ∧
        0 ≤ t ∧ (t < (p : ℤ) ∨ t = acc) ∧
        ((t : ℤ) : ZMod p) = ((acc : ℤ) : ZMod p) *
          (js.map (fun j => if j = i then (1 : ZMod p)
            else (0 - ((xs.getD j 0 : ℤ) : ZMod p)) *
              (((xs.getD i 0 : ℤ) : ZMod p) - ((xs.getD j 0 : ℤ) : ZMod p))⁻¹)).prod := by
  intro js
  induction js with
  | nil =>
    intro _ acc hacc
    exact ⟨acc, rfl, hacc, Or.inr rfl, by simp⟩
  | cons j js ih =>
    intro hjs acc hacc
    have hjlen : j < xs.length := hjs j (by simp)
    by_cases hji : j = i
    · subst hji
      obtain ⟨t, ht, h1, h2, h3⟩ := ih (fun x hx => hjs x (by simp [hx])) acc hacc
      refine ⟨t, ?_, h1, h2, ?_⟩
      · rw [lagrangeTermGo, if_pos rfl]
        exact ht
      · rw [List.map_cons, List.prod_cons, if_pos rfl, one_mul]
        exact h3
    · -- j ≠ i : one real multiplication step
      have hmemj : xs.getD j 0 ∈ xs := by
        rw [List.getD_eq_getElem xs 0 hjlen]
        exact List.getElem_mem hjlen
      have hmemi : xs.getD i 0 ∈ xs := by
        rw [List.getD_eq_getElem xs 0 hi]
        exact List.getElem_mem hi
      obtain ⟨hxj0, hxjp⟩ := hx (xs.getD j 0) hmemj
      obtain ⟨hxi0, hxip⟩ := hx (xs.getD i 0) hmemi
      have hne : xs.getD i 0 ≠ xs.getD j 0 := (hneq j hjlen hji).symm
      obtain ⟨hd0, hdp⟩ := jsDenom_bounds p (xs.getD i 0) (xs.getD j 0) hxi0 hxip hxj0 hxjp hne
      obtain ⟨r, hr, hr0, hrp, hrinv⟩ := modInverse_cast_inv p hp _ hd0 hdp
      have hppos : (0 : ℤ) < (p : ℤ) := by omega
      have hnum0 : 0 ≤ jsNum 0 (xs.getD j 0) (p : ℤ) := by
        unfold jsNum
        exact Int.tmod_nonneg _ (by omega)
      set acc' := ((acc * jsNum 0 (xs.getD j 0) (p : ℤ)).tmod (p : ℤ) * r).tmod (p : ℤ)
        with hacc_eq
      have hacc'0 : 0 ≤ acc' :=
        Int.tmod_nonneg _ (mul_nonneg (Int.tmod_nonneg _ (mul_nonneg hacc hnum0)) hr0)
      have hacc'p : acc' < (p : ℤ) := Int.tmod_lt_of_pos _ hppos
      obtain ⟨t, ht, h1, h2, h3⟩ := ih (fun x hx => hjs x (by simp [hx])) acc' hacc'0
      have htp : t < (p : ℤ) := by rcases h2 with h | h <;> omega
      have hnum : ((jsNum 0 (xs.getD j 0) (p : ℤ) : ℤ) : ZMod p)
          = 0 - ((xs.getD j 0 : ℤ) : ZMod p) := by
        unfold jsNum
        rw [intCast_tmod]
        push_cast
        simp
      have hden : ((jsDenom (xs.getD i 0) (xs.getD j 0) (p : ℤ) : ℤ) : ZMod p)
          = ((xs.getD i 0 : ℤ) : ZMod p) - ((xs.getD j 0 : ℤ) : ZMod p) := by
        unfold jsDenom
        rw [intCast_tmod]
        push_cast
        simp
      have hacc'cast : ((acc' : ℤ) : ZMod p) = ((acc : ℤ) : ZMod p) *
          ((0 - ((xs.getD j 0 : ℤ) : ZMod p)) *
            (((xs.getD i 0 : ℤ) : ZMod p) - ((xs.getD j 0 : ℤ) : ZMod p))⁻¹) := by
        rw [hacc_eq, intCast_tmod]
        push_cast
        rw [intCast_tmod]
        push_cast
        rw [hnum, hrinv, hden]
        ring
      refine ⟨t, ?_, h1, Or.inl htp, ?_⟩
      · rw [lagrangeTermGo, if_neg (fun h => hji h.symm)]
        show (match modInverse (jsDenom (xs.getD i 0) (xs.getD j 0) (p : ℤ)) (p : ℤ) with
          | none => none
          | some inv => lagrangeTermGo xs (xs.getD i 0) 0 (p : ℤ) i js
              (((acc * jsNum 0 (xs.getD j 0) (p : ℤ)).tmod (p : ℤ) * inv).tmod (p : ℤ)))
          = some t
        rw [hr]
        exact ht
      · rw [List.map_cons, List.prod_cons, if_neg hji, h3, hacc'cast]
        ring

/-- Pairwise-distinct list entries, as a statement about positional values. -/
theorem pairwise_ne_getD (xs : List ℤ) (hnd : xs.Pairwise (· ≠ ·)) (i j : ℕ)
    (hi : i < xs.length) (hj : j < xs.length) (hij : j ≠ i) :
    xs.getD j 0 ≠ xs.getD i 0 := by
  rw [List.getD_eq_getElem xs 0 hi, List.getD_eq_getElem xs 0 hj]
  rw [List.pairwise_iff_getElem] at hnd
  rcases Nat.lt_or_ge j i with h | h
  · exact hnd j i hj hi h
  · exact (hnd i j hi hj (by omega)).symm

/-- Specification of the outer loop of `lagrangeInterpolateBigInt`: it
succeeds, stays in `[0, p)`, and accumulates in `ZMod p` the sum of
`y_i` times the basis product of node `i`. -/
theorem lagrangeGo_spec (p : ℕ) (hp : p.Prime) (xs ys : List ℤ)
    (hx : ∀ x ∈ xs, 0 ≤ x ∧ x < (p : ℤ))
    (hnd : xs.Pairwise (· ≠ ·))
    (hy : ∀ y ∈ ys, 0 ≤ y)
    (hlen : ys.length = xs.length) :
    ∀ is : List ℕ, (∀ i ∈ is, i < xs.length) → ∀ tot : ℤ, 0 ≤ tot → tot < (p : ℤ) →
      ∃ T, lagrangeGo xs ys 0 (p : ℤ) is tot = some T ∧ 0 ≤ T ∧ T < (p : ℤ) ∧
        ((T : ℤ) : ZMod p) = ((tot : ℤ) : ZMod p) +
          (is.map (fun i => ((ys.getD i 0 : ℤ) : ZMod p) * termProd p xs i)).sum := by
  intro is
  induction is with
  | nil =>
    intro _ tot h0 h1
    exact ⟨tot, rfl, h0, h1, by simp⟩
  | cons i is ih =>
    intro his tot h0 h1
    have hilen : i < xs.length := his i (by simp)
    have hyi : 0 ≤ ys.getD i 0 := by
      have hmem : ys.getD i 0 ∈ ys := by
        rw [List.getD_eq_getElem ys 0 (by omega)]
        exact List.getElem_mem (by omega)
      exact hy _ hmem
    obtain ⟨t, ht, ht0, htr, htc⟩ :=
      lagrangeTermGo_spec p hp xs hx i hilen
        (fun j hj hji => pairwise_ne_getD xs hnd i j hilen hj hji)
        (List.range xs.length) (fun j hj => List.mem_range.mp hj)
        (ys.getD i 0) hyi
    have hppos : (0 : ℤ) < (p : ℤ) := by omega
    have htp : t < (p : ℤ) ∨ 0 ≤ t := Or.inr ht0
    set tot' := (tot + t).tmod (p : ℤ) with htot'
    have h0' : 0 ≤ tot' := Int.tmod_nonneg _ (by omega)
    have h1' : tot' < (p : ℤ) := Int.tmod_lt_of_pos _ hppos
    obtain ⟨T, hT, hT0, hT1, hTc⟩ := ih (fun x hx => his x (by simp [hx])) tot' h0' h1'
    refine ⟨T, ?_, hT0, hT1, ?_⟩
    · rw [lagrangeGo]
      show (match lagrangeTermGo xs (xs.getD i 0) 0 (p : ℤ) i (List.range xs.length)
          (ys.getD i 0) with
        | none => none
        | some term => lagrangeGo xs ys 0 (p : ℤ) is ((tot + term).tmod (p : ℤ))) = some T
      rw [ht]
      exact hT
    · rw [hTc, List.map_cons, List.sum_cons, htot', intCast_tmod]
      push_cast
      rw [htc]
      show _ = _ + (((ys.getD i 0 : ℤ) : ZMod p) * termProd p xs i + _)
      unfold termProd
      ring

/-- Bridge between the integer program `lagrangeInterpolateBigInt` and its
mathematical value in `ZMod p`: with all nodes in `[0, p)` and distinct and
nonnegative values, the program returns the canonical representative of the
Lagrange sum at `0`. -/
theorem lagrange_bridge (p : ℕ) (hp : p.Prime) (xs ys : List ℤ)
    (hx : ∀ x ∈ xs, 0 ≤ x ∧ x < (p : ℤ))
    (hnd : xs.Pairwise (· ≠ ·))
    (hy : ∀ y ∈ ys, 0 ≤ y)
    (hlen : ys.length = xs.length) :
    ∃ T, lagrangeInterpolateBigInt xs ys 0 (p : ℤ) = some T ∧ 0 ≤ T ∧ T < (p : ℤ) ∧
      ((T : ℤ) : ZMod p) =
        ((List.range xs.length).map
          (fun i => ((ys.getD i 0 : ℤ) : ZMod p) * termProd p xs i)).sum := by
  have hppos : (0 : ℤ) < (p : ℤ) := by exact_mod_cast hp.pos
  obtain ⟨T, hT, h1, h2, h3⟩ := lagrangeGo_spec p hp xs ys hx hnd hy hlen
    (List.range xs.length) (fun i hi => List.mem_range.mp hi) 0 le_rfl hppos
  exact ⟨T, hT, h1, h2, by simpa using h3⟩

/-! ### Connection with Mathlib Lagrange interpolation -/

/-- Sum of a map over `List.range` as a `Finset.range` sum. -/
theorem listSum_range (M : Type) [AddCommMonoid M] (n : ℕ) (f : ℕ → M) :
    ((List.range n).map f).sum = ∑ i ∈ Finset.range n, f i := by
  induction n with
  | zero => simp
  | succ n ih => rw [List.range_succ, List.map_append, List.sum_append, Finset.sum_range_succ, ih]; simp

/-- Product of a map over `List.range` as a `Finset.range` product. -/
theorem listProd_range (M : Type) [CommMonoid M] (n : ℕ) (f : ℕ → M) :
    ((List.range n).map f).prod = ∏ i ∈ Finset.range n, f i := by
  induction n with
  | zero => simp
  | succ n ih => rw [List.range_succ, List.map_append, List.prod_append, Finset.prod_range_succ, ih]; simp

/-- `termProd` as a `Finset` product over the erased index set. -/
theorem termProd_eq_finset (p : ℕ) (xs : List ℤ) (i : ℕ) :
    termProd p xs i = ∏ j ∈ (Finset.range xs.length).erase i,
      (0 - ((xs.getD j 0 : ℤ) : ZMod p)) *
        (((xs.getD i 0 : ℤ) : ZMod p) - ((xs.getD j 0 : ℤ) : ZMod p))⁻¹ := by
  unfold termProd
  rw [listProd_range]
  rw [← Finset.prod_erase (Finset.range xs.length) (by simp :
    (if i = i then (1 : ZMod p)
      else (0 - ((xs.getD i 0 : ℤ) : ZMod p)) *
        (((xs.getD i 0 : ℤ) : ZMod p) - ((xs.getD i 0 : ℤ) : ZMod p))⁻¹) = 1)]
  exact Finset.prod_congr rfl (fun j hj => if_neg (Finset.ne_of_mem_erase hj))

/-- Horner evaluation over `ℤ` casts to polynomial evaluation over `ZMod p`. -/
theorem evalPoly_cast (p : ℕ) (cs : List ℤ) (x : ℤ) :
    ((evalPoly cs x : ℤ) : ZMod p) = (polyOfList p cs).eval ((x : ℤ) : ZMod p) := by
  induction cs with
  | nil => simp [evalPoly, polyOfList]
  | cons c cs ih =>
    show ((c + x * evalPoly cs x : ℤ) : ZMod p) = _
    push_cast
    rw [ih]
    simp [polyOfList]

/-- Coefficients of `polyOfList` are the casts of the list entries. -/
theorem polyOfList_coeff (p : ℕ) (cs : List ℤ) (k : ℕ) :
    (polyOfList p cs).coeff k = ((cs.getD k 0 : ℤ) : ZMod p) := by
  induction cs generalizing k with
  | nil => simp [polyOfList]
  | cons c cs ih =>
    cases k with
    | zero => simp [polyOfList, Polynomial.mul_coeff_zero]
    | succ k =>
      show (Polynomial.C ((c : ℤ) : ZMod p) + Polynomial.X * polyOfList p cs).coeff (k + 1) = _
      rw [Polynomial.coeff_add, Polynomial.coeff_X_mul, ih, Polynomial.coeff_C,
        if_neg (Nat.succ_ne_zero k), zero_add, List.getD_cons_succ]

/-- The degree of `polyOfList` is below the length of the coefficient list. -/
theorem polyOfList_degree (p : ℕ) (cs : List ℤ) :
    (polyOfList p cs).degree < (cs.length : WithBot ℕ) := by
  induction cs with
  | nil =>
    show (0 : Polynomial (ZMod p)).degree < _
    rw [Polynomial.degree_zero]
    exact WithBot.bot_lt_coe _
  | cons c cs ih =>
    show (Polynomial.C ((c : ℤ) : ZMod p) + Polynomial.X * polyOfList p cs).degree < _
    have hsucc : ((c :: cs).length : WithBot ℕ) = 1 + (cs.length : WithBot ℕ) := by
      rw [List.length_cons]
      push_cast
      ring
    rw [hsucc]
    apply lt_of_le_of_lt (Polynomial.degree_add_le _ _)
    apply max_lt
    · apply lt_of_le_of_lt (Polynomial.degree_C_le)
      exact lt_of_lt_of_le (by exact_mod_cast Nat.zero_lt_one : (0 : WithBot ℕ) < 1)
        (le_add_of_nonneg_right (by exact_mod_cast Nat.zero_le _))
    · apply lt_of_le_of_lt (Polynomial.degree_mul_le _ _)
      apply lt_of_le_of_lt (add_le_add_right Polynomial.degree_X_le _)
      exact WithBot.add_lt_add_left (by simp) ih

/-- Integer casts into `ZMod p` are injective on `[0, p)`. -/
theorem intCast_inj_of_range (p : ℕ) (a b : ℤ) (h1 : 0 ≤ a) (h2 : a < (p : ℤ))
    (h3 : 0 ≤ b) (h4 : b < (p : ℤ))
    (hc : ((a : ℤ) : ZMod p) = ((b : ℤ) : ZMod p)) : a = b := by
  rw [ZMod.intCast_eq_intCast_iff] at hc
  unfold Int.ModEq at hc
  rw [Int.emod_eq_of_lt h1 h2, Int.emod_eq_of_lt h3 h4] at hc
  exact hc

/-- Distinct in-range nodes cast injectively into `ZMod p` (indexed over
`Finset.range`). -/
theorem nodes_injOn (p : ℕ) (xs : List ℤ)
    (hx : ∀ x ∈ xs, 0 ≤ x ∧ x < (p : ℤ)) (hnd : xs.Pairwise (· ≠ ·)) :
    Set.InjOn (fun i => ((xs.getD i 0 : ℤ) : ZMod p))
      ((Finset.range xs.length : Finset ℕ) : Set ℕ) := by
  intro i hi j hj hij
  have hi' : i < xs.length := Finset.mem_range.mp (Finset.mem_coe.mp hi)
  have hj' : j < xs.length := Finset.mem_range.mp (Finset.mem_coe.mp hj)
  by_contra hne
  obtain ⟨ha1, ha2⟩ := hx (xs.getD i 0) (by
    rw [List.getD_eq_getElem xs 0 hi']
    exact List.getElem_mem hi')
  obtain ⟨hb1, hb2⟩ := hx (xs.getD j 0) (by
    rw [List.getD_eq_getElem xs 0 hj']
    exact List.getElem_mem hj')
  exact pairwise_ne_getD xs hnd j i hj' hi' hne
    (intCast_inj_of_range p _ _ ha1 ha2 hb1 hb2 hij)

/-- Any family of values on distinct in-range nodes is interpolated by some
polynomial over `ZMod p` of degree below the node count. -/
theorem exists_interpolant (p : ℕ) (hp : p.Prime) (xs ys : List ℤ)
    (hx : ∀ x ∈ xs, 0 ≤ x ∧ x < (p : ℤ)) (hnd : xs.Pairwise (· ≠ ·)) :
    ∃ Q : Polynomial (ZMod p), Q.degree < (xs.length : WithBot ℕ) ∧
      ∀ i, i < xs.length →
        Q.eval ((xs.getD i 0 : ℤ) : ZMod p) = ((ys.getD i 0 : ℤ) : ZMod p) := by
  haveI : Fact p.Prime := ⟨hp⟩
  have hinj := nodes_injOn p xs hx hnd
  refine ⟨Lagrange.interpolate (Finset.range xs.length)
    (fun i => ((xs.getD i 0 : ℤ) : ZMod p)) (fun i => ((ys.getD i 0 : ℤ) : ZMod p)), ?_, ?_⟩
  · simpa using Lagrange.degree_interpolate_lt _ hinj
  · intro i hi
    exact Lagrange.eval_interpolate_at_node _ hinj (Finset.mem_range.mpr hi)

/-- The sum computed by the interpolation loops equals the evaluation at `0`
of any polynomial of degree below the number of nodes passing through all
the (cast) points. -/
theorem interp_sum_eval (p : ℕ) (hp : p.Prime) (xs ys : List ℤ)
    (hx : ∀ x ∈ xs, 0 ≤ x ∧ x < (p : ℤ)) (hnd : xs.Pairwise (· ≠ ·))
    (Q : Polynomial (ZMod p)) (hdeg : Q.degree < (xs.length : WithBot ℕ))
    (hev : ∀ i, i < xs.length →
      Q.eval ((xs.getD i 0 : ℤ) : ZMod p) = ((ys.getD i 0 : ℤ) : ZMod p)) :
    ((List.range xs.length).map
      (fun i => ((ys.getD i 0 : ℤ) : ZMod p) * termProd p xs i)).sum = Q.eval 0 := by
  haveI : Fact p.Prime := ⟨hp⟩
  have hinj := nodes_injOn p xs hx hnd
  have hQ : Q = Lagrange.interpolate (Finset.range xs.length)
      (fun i => ((xs.getD i 0 : ℤ) : ZMod p)) (fun i => ((ys.getD i 0 : ℤ) : ZMod p)) :=
    Lagrange.eq_interpolate_of_eval_eq (fun i => ((ys.getD i 0 : ℤ) : ZMod p)) hinj
      (by simpa using hdeg) (fun i hi => hev i (Finset.mem_range.mp hi))
  rw [listSum_range, hQ, Lagrange.interpolate_apply, Polynomial.eval_finset_sum]
  apply Finset.sum_congr rfl
  intro i hi
  rw [Polynomial.eval_mul, Polynomial.eval_C]
  congr 1
  unfold Lagrange.basis
  rw [Polynomial.eval_prod, termProd_eq_finset]
  apply Finset.prod_congr rfl
  intro j hj
  unfold Lagrange.basisDivisor
  rw [Polynomial.eval_mul, Polynomial.eval_C, Polynomial.eval_sub, Polynomial.eval_X,
    Polynomial.eval_C]
  ring

/-- Main refinement: with in-range distinct nodes and nonnegative values,
`lagrangeInterpolateBigInt` at `0` returns the canonical representative of
`Q(0)` for any polynomial `Q` over `ZMod p` of degree below the node count
interpolating the points. -/
theorem lagrange_eval_poly (p : ℕ) (hp : p.Prime) (xs ys : List ℤ)
    (hx : ∀ x ∈ xs, 0 ≤ x ∧ x < (p : ℤ)) (hnd : xs.Pairwise (· ≠ ·))
    (hy : ∀ y ∈ ys, 0 ≤ y) (hlen : ys.length = xs.length)
    (Q : Polynomial (ZMod p)) (hdeg : Q.degree < (xs.length : WithBot ℕ))
    (hev : ∀ i, i < xs.length →
      Q.eval ((xs.getD i 0 : ℤ) : ZMod p) = ((ys.getD i 0 : ℤ) : ZMod p)) :
    lagrangeInterpolateBigInt xs ys 0 (p : ℤ) = some (((Q.eval 0).val : ℕ) : ℤ) := by
  haveI : Fact p.Prime := ⟨hp⟩
  obtain ⟨T, hT, h0, h1, hc⟩ := lagrange_bridge p hp xs ys hx hnd hy hlen
  rw [interp_sum_eval p hp xs ys hx hnd Q hdeg hev] at hc
  have hval : (((Q.eval 0).val : ℕ) : ℤ) = T := by
    rw [← hc, ZMod.val_intCast]
    exact Int.emod_eq_of_lt h0 h1
  rw [hT, hval]

/-! ### Share selection -/

/-- Sorting the shares is a permutation of the shares. -/
theorem sortShares_perm (shares : List (ℤ × Share)) : (sortShares shares).Perm shares :=
  List.perm_insertionSort _ shares

/-- The sorted share list is pairwise nondecreasing in its indices. -/
theorem sortShares_sorted (shares : List (ℤ × Share)) :
    (sortShares shares).Pairwise (fun s t => s.1 ≤ t.1) := by
  haveI h1 : IsTotal (ℤ × Share) (fun s t => s.1 ≤ t.1) := ⟨fun a b => le_total a.1 b.1⟩
  haveI h2 : IsTrans (ℤ × Share) (fun s t => s.1 ≤ t.1) := ⟨fun a b c => le_trans⟩
  exact List.sorted_insertionSort _ shares

/-- The selection step returns exactly `k` shares, with pairwise strictly
increasing indices, and every unselected share has a strictly larger index
than every selected one. -/
theorem selectShares_spec (shares : List (ℤ × Share)) (k : ℕ)
    (hk : k ≤ shares.length) (hnd : (shares.map Prod.fst).Nodup) :
    (selectShares shares k).length = k ∧
    ((selectShares shares k).map Prod.fst).Pairwise (· < ·) ∧
    ∀ s ∈ shares, s ∉ selectShares shares k →
      ∀ t ∈ selectShares shares k, t.1 < s.1 := by
  have hperm := sortShares_perm shares
  have hsorted := sortShares_sorted shares
  have hndsorted : ((sortShares shares).map Prod.fst).Nodup :=
    (hperm.map Prod.fst).nodup_iff.mpr hnd
  have hinj := List.inj_on_of_nodup_map hndsorted
  have hlen : (sortShares shares).length = shares.length := hperm.length_eq
  have hsub : List.Sublist (selectShares shares k) (sortShares shares) :=
    List.take_sublist k _
  refine ⟨?_, ?_, ?_⟩
  · unfold selectShares
    rw [List.length_take, hlen]
    omega
  · have h1 : (selectShares shares k).Pairwise (fun s t => s.1 ≤ t.1) :=
      List.Pairwise.sublist hsub hsorted
    have h2 : (selectShares shares k).Pairwise (fun s t => s ≠ t) :=
      List.Pairwise.sublist hsub (hperm.nodup_iff.mpr (hnd.of_map _))
    rw [List.pairwise_map]
    refine List.Pairwise.imp_of_mem ?_ (h1.and h2)
    rintro a b ha hb ⟨hle, hne⟩
    rcases lt_or_eq_of_le hle with h | h
    · exact h
    · exact absurd (hinj (hsub.subset ha) (hsub.subset hb) h) hne
  · intro s hs hsnot t ht
    have hssorted : s ∈ sortShares shares := hperm.mem_iff.mpr hs
    have hsplit : selectShares shares k ++ (sortShares shares).drop k = sortShares shares :=
      List.take_append_drop k (sortShares shares)
    have hsdrop : s ∈ (sortShares shares).drop k := by
      rcases List.mem_append.mp (by rw [hsplit]; exact hssorted) with h | h
      · exact absurd h hsnot
      · exact h
    have hpa : (selectShares shares k ++ (sortShares shares).drop k).Pairwise
        (fun s t => s.1 ≤ t.1) := by
      rw [hsplit]
      exact hsorted
    have hle : t.1 ≤ s.1 := (List.pairwise_append.mp hpa).2.2 t ht s hsdrop
    rcases lt_or_eq_of_le hle with h | h
    · exact h
    · have hts : t = s := hinj (hsub.subset ht) hssorted h
      subst hts
      exact absurd ht hsnot

/-! ### Decode-error propagation -/

/-- If decoding the `i`-th share fails while every earlier share decodes,
then the whole `mapM` fails with the same error (left-to-right, fail-fast,
no skipping). -/
theorem mapM_decodeShare_error :
    ∀ (l : List (ℤ × Share)) (i : ℕ) (hi : i < l.length) (e : String),
      decodeShare (l.get ⟨i, hi⟩) = Except.error e →
      (∀ j, ∀ hj : j < i, ∃ v, decodeShare (l.get ⟨j, by omega⟩) = Except.ok v) →
      l.mapM decodeShare = Except.error e := by
  intro l
  induction l with
  | nil =>
    intro i hi
    simp at hi
  | cons a l ih =>
    intro i hi e herr hok
    cases i with
    | zero =>
      rw [List.mapM_cons, show decodeShare a = Except.error e from herr]
      rfl
    | succ i =>
      obtain ⟨v, hv⟩ := hok 0 (Nat.succ_pos i)
      have hrec := ih i (Nat.lt_of_succ_lt_succ hi) e herr (fun j hj => hok (j + 1) (by omega))
      rw [List.mapM_cons, show decodeShare a = Except.ok v from hv, hrec]
      rfl

/-- A decode failure among the selected shares propagates as failure of the
whole recovery. -/
theorem recoverSecret_error_of_mapM (shares : List (ℤ × Share)) (k : ℕ) (e : String)
    (hmapM : (selectShares shares k).mapM decodeShare = Except.error e) :
    recoverSecret shares k = Except.error e := by
  simp only [recoverSecret, hmapM]
  rfl

/-- `Nat.ofDigits` over `ℤ` with a nonnegative base is nonnegative. -/
theorem ofDigits_nonneg (b : ℤ) (hb : 0 ≤ b) (l : List ℕ) : 0 ≤ Nat.ofDigits b l := by
  induction l with
  | nil => simp [Nat.ofDigits]
  | cons d l ih =>
    show (0 : ℤ) ≤ (d : ℤ) + b * Nat.ofDigits b l
    positivity

/-! ### The claims -/

set_option maxRecDepth 40000

/-- C2: for every base `b ∈ [2, 36]` and every nonempty string all of whose
characters are, case-insensitively, alphabet digits of value strictly less
than `b`, `parseValueBigInt` succeeds with the exact nonnegative integer
denoted by the string in base `b` (the positional value, `Nat.ofDigits` of
the reversed digit list), computed by left-to-right accumulation in exact
integer arithmetic. -/
theorem C2_decode_correct (b : ℤ) (s : String) (hb1 : 2 ≤ b) (hb2 : b ≤ 36)
    (hne : s.toList ≠ [])
    (hd : ∀ c ∈ s.toList, 0 ≤ jsIndexOf c.toLower ∧ jsIndexOf c.toLower < b) :
    parseValueBigInt b s =
      Except.ok (Nat.ofDigits b
        ((s.toList.map (fun c => (jsIndexOf c.toLower).toNat)).reverse)) ∧
    0 ≤ Nat.ofDigits b ((s.toList.map (fun c => (jsIndexOf c.toLower).toNat)).reverse) := by
  refine ⟨?_, ofDigits_nonneg b (by omega) _⟩
  unfold parseValueBigInt
  rw [foldlM_parseStep b (s.toList.map Char.toLower) 0 (by
    intro c hc
    obtain ⟨c0, hc0, rfl⟩ := List.mem_map.mp hc
    exact (hd c0 hc0).1)]
  congr 1
  rw [zero_mul, zero_add, List.map_map]
  rfl

/-- C2 witness: the three decode examples from the specification. -/
theorem C2_decode_correct_witness :
    parseValueBigInt 2 "111" = Except.ok 7 ∧ parseValueBigInt 4 "213" = Except.ok 39 ∧
      parseValueBigInt 16 "ff" = Except.ok 255 := by
  refine ⟨?_, ?_, ?_⟩
  · exact (C2_decode_correct 2 "111" (by norm_num) (by norm_num) (by decide)
      (by decide)).1.trans (congrArg Except.ok (by decide))
  · exact (C2_decode_correct 4 "213" (by norm_num) (by norm_num) (by decide)
      (by decide)).1.trans (congrArg Except.ok (by decide))
  · exact (C2_decode_correct 16 "ff" (by norm_num) (by norm_num) (by decide)
      (by decide)).1.trans (congrArg Except.ok (by decide))

/-- C3: contrary to the claim (and to the sibling decoder `baseToDecimal`
in `shamir_solver.js`, which checks `digitValue >= base`), `parseValueBigInt`
accepts digits whose value is at least the base: decoding `"g"` in base 16
silently returns 16 instead of failing with an invalid-digit error. -/
theorem C3_digit_ge_base_accepted : parseValueBigInt 16 "g" = Except.ok 16 := by rfl

/-- C4: contrary to the claim (and to the sibling implementations in
`test.js` and `shamir_solver.js`, which check `shares.length < k`),
`recoverSecret` performs no insufficient-shares check: with only two usable
shares and threshold `k = 3` it silently interpolates the two available
points `(1, 4), (2, 7)` — the line `3x + 1` — and returns `1`. -/
theorem C4_no_insufficient_shares_check :
    recoverSecret [(1, ⟨10, "4"⟩), (2, ⟨2, "111"⟩)] 3 = Except.ok 1 := by rfl

/-- C5: for every prime `m` and every `a` with `0 < a < m`, `modInverse a m`
returns `some r` with `0 ≤ r < m` and `(a * r) % m = 1`. -/
theorem C5_modInverse_correct (p : ℕ) (hp : p.Prime) (a : ℤ) (h0 : 0 < a)
    (h1 : a < (p : ℤ)) :
    ∃ r, modInverse a (p : ℤ) = some r ∧ 0 ≤ r ∧ r < (p : ℤ) ∧ (a * r) % (p : ℤ) = 1 := by
  obtain ⟨r, hr, h2, h3, h4⟩ := modInverse_prime_spec p hp a h0 h1
  refine ⟨r, hr, h2, h3, ?_⟩
  have hp2 : 2 ≤ p := hp.two_le
  unfold Int.ModEq at h4
  rw [h4, Int.emod_eq_of_lt (by norm_num) (by exact_mod_cast hp2)]

/-- C5 witness: the inverse of 3 modulo the prime 7. -/
theorem C5_modInverse_correct_witness :
    ∃ r, modInverse 3 ((7 : ℕ) : ℤ) = some r ∧ 0 ≤ r ∧ r < ((7 : ℕ) : ℤ) ∧
      (3 * r) % ((7 : ℕ) : ℤ) = 1 :=
  C5_modInverse_correct 7 (by norm_num) 3 (by norm_num) (by norm_num)

/-- C9 counterexample: with merely pairwise-distinct integer x values the
normalized denominator can be `0` — and hence not coprime to the prime
modulus: take `x_i = 0`, `x_j = 3` and the prime `3`. -/
theorem C9_counterexample :
    (0 : ℤ) ≠ 3 ∧ Nat.Prime 3 ∧ jsDenom 0 3 3 = 0 ∧
      Int.gcd (jsDenom 0 3 3) 3 ≠ 1 := by
  exact ⟨by decide, by norm_num, by decide, by decide⟩

/-- C9 (amended): provided the pairwise-distinct x values are normalized
into `[0, p)` (as share indices below the prime are), every denominator
`(x_i - x_j + p) % p` handed to `modInverse` lies strictly between `0` and
`p`, is coprime to the prime modulus, and the division-by-zero (gcd ≠ 1)
path of `modInverse` is unreachable. -/
theorem C9_denominator_in_range (p : ℕ) (hp : p.Prime) (xi xj : ℤ)
    (h1 : 0 ≤ xi) (h2 : xi < (p : ℤ)) (h3 : 0 ≤ xj) (h4 : xj < (p : ℤ))
    (hne : xi ≠ xj) :
    0 < jsDenom xi xj (p : ℤ) ∧ jsDenom xi xj (p : ℤ) < (p : ℤ) ∧
      Int.gcd (jsDenom xi xj (p : ℤ)) (p : ℤ) = 1 ∧
      ∃ r, modInverse (jsDenom xi xj (p : ℤ)) (p : ℤ) = some r := by
  obtain ⟨hd0, hdp⟩ := jsDenom_bounds p xi xj h1 h2 h3 h4 hne
  refine ⟨hd0, hdp, gcd_eq_one_of_prime p hp _ hd0 hdp, ?_⟩
  obtain ⟨r, hr, -, -, -⟩ := modInverse_prime_spec p hp _ hd0 hdp
  exact ⟨r, hr⟩

/-- C9 witness: nodes 1 and 2 with the prime 7. -/
theorem C9_denominator_in_range_witness :
    0 < jsDenom 1 2 ((7 : ℕ) : ℤ) ∧ jsDenom 1 2 ((7 : ℕ) : ℤ) < ((7 : ℕ) : ℤ) ∧
      Int.gcd (jsDenom 1 2 ((7 : ℕ) : ℤ)) ((7 : ℕ) : ℤ) = 1 ∧
      ∃ r, modInverse (jsDenom 1 2 ((7 : ℕ) : ℤ)) ((7 : ℕ) : ℤ) = some r :=
  C9_denominator_in_range 7 (by norm_num) 1 2 (by norm_num) (by norm_num)
    (by norm_num) (by norm_num) (by norm_num)

/-- C10: for `0 < a < m` with `gcd(a, m) = 1` the Euclidean loop of
`modInverse` terminates with a result: the division-by-zero (`none`) path is
never taken, so `modInverse` is total on this domain. -/
theorem C10_modInverse_total (a m : ℤ) (h0 : 0 < a) (h1 : a < m)
    (h2 : Int.gcd a m = 1) : ∃ r, modInverse a m = some r := by
  obtain ⟨r, hr, -, -, -⟩ := modInverse_spec a m h0 h1 h2
  exact ⟨r, hr⟩

/-- C10 witness: `modInverse 3 10` (composite modulus, coprime argument). -/
theorem C10_modInverse_total_witness : ∃ r, modInverse 3 10 = some r :=
  C10_modInverse_total 3 10 (by norm_num) (by norm_num) (by decide)

/-- C1 counterexample: pairwise-distinct integer x values alone do not
suffice.  For the prime 3 and the points `(0, 1), (4, 2)` lying on
`P(X) = 1 + X` modulo 3 (the unique interpolant of degree at most 1 on the
distinct residues 0 and 1, constant term `1 ∈ [0, 3)`), the code returns
`-1` rather than `P(0) mod 3 = 1`. -/
theorem C1_counterexample :
    Nat.Prime 3 ∧ (0 : ℤ) ≠ 4 ∧
    evalPoly [1, 1] 0 = 1 ∧ Int.ModEq 3 1 (evalPoly [1, 1] 0) ∧
    Int.ModEq 3 2 (evalPoly [1, 1] 4) ∧
    lagrangeInterpolateBigInt [0, 4] [1, 2] 0 3 = some (-1) ∧
    (-1 : ℤ) ≠ 1 :=
  ⟨by norm_num, by decide, by decide, by decide, by decide, by decide, by decide⟩

/-- C1 (amended): with the pairwise-distinct x values additionally
normalized into `[0, p)` (and nonnegative y values, per the data model),
`lagrangeInterpolateBigInt` at target 0 with a prime modulus returns
exactly `P(0) mod p` for every integer polynomial `P` of degree at most
`k - 1` through the `k` points modulo `p`; in particular, when the constant
term satisfies `0 ≤ P(0) < p`, it returns exactly that constant term. -/
theorem C1_interpolation_correct (p : ℕ) (hp : p.Prime) (xs ys coeffs : List ℤ)
    (hlen : ys.length = xs.length)
    (hx : ∀ x ∈ xs, 0 ≤ x ∧ x < (p : ℤ))
    (hnd : xs.Pairwise (· ≠ ·))
    (hy : ∀ y ∈ ys, 0 ≤ y)
    (hdeg : coeffs.length ≤ xs.length)
    (hpts : ∀ i, i < xs.length →
      Int.ModEq (p : ℤ) (ys.getD i 0) (evalPoly coeffs (xs.getD i 0))) :
    lagrangeInterpolateBigInt xs ys 0 (p : ℤ) = some (evalPoly coeffs 0 % (p : ℤ)) ∧
    (0 ≤ evalPoly coeffs 0 → evalPoly coeffs 0 < (p : ℤ) →
      lagrangeInterpolateBigInt xs ys 0 (p : ℤ) = some (evalPoly coeffs 0)) := by
  haveI : Fact p.Prime := ⟨hp⟩
  have hmain : lagrangeInterpolateBigInt xs ys 0 (p : ℤ)
      = some ((((polyOfList p coeffs).eval 0).val : ℕ) : ℤ) := by
    apply lagrange_eval_poly p hp xs ys hx hnd hy hlen
    · exact lt_of_lt_of_le (polyOfList_degree p coeffs) (by exact_mod_cast hdeg)
    · intro i hi
      rw [← evalPoly_cast]
      exact ((ZMod.intCast_eq_intCast_iff _ _ _).mpr (hpts i hi)).symm
  have heval0 : (polyOfList p coeffs).eval 0 = ((evalPoly coeffs 0 : ℤ) : ZMod p) := by
    rw [evalPoly_cast]
    norm_num
  have hval : ((((polyOfList p coeffs).eval 0).val : ℕ) : ℤ) = evalPoly coeffs 0 % (p : ℤ) := by
    rw [heval0, ZMod.val_intCast]
  constructor
  · rw [hmain, hval]
  · intro hc0 hcp
    rw [hmain, hval, Int.emod_eq_of_lt hc0 hcp]

/-- C1 witness: the quadratic `3 + x^2` through `(1,4), (2,0), (3,5)`
modulo the prime 7 (`P(2) = 7 ≡ 0`, `P(3) = 12 ≡ 5`), constant term 3. -/
theorem C1_interpolation_correct_witness :
    lagrangeInterpolateBigInt [1, 2, 3] [4, 0, 5] 0 ((7 : ℕ) : ℤ)
        = some (evalPoly [3, 0, 1] 0 % ((7 : ℕ) : ℤ)) ∧
    (0 ≤ evalPoly [3, 0, 1] 0 → evalPoly [3, 0, 1] 0 < ((7 : ℕ) : ℤ) →
      lagrangeInterpolateBigInt [1, 2, 3] [4, 0, 5] 0 ((7 : ℕ) : ℤ)
        = some (evalPoly [3, 0, 1] 0)) :=
  C1_interpolation_correct 7 (by norm_num) [1, 2, 3] [4, 0, 5] [3, 0, 1]
    (by decide) (by decide) (by decide) (by decide) (by decide) (by decide)

/-- C6: with at least `k` shares and pairwise-distinct indices, the share
selection used by `recoverSecret` returns exactly `k` shares, their indices
sorted strictly ascending as numbers, and every unselected share has a
strictly larger index than every selected one: `recoverSecret` uses the `k`
numerically smallest indices. -/
theorem C6_selection_smallest (shares : List (ℤ × Share)) (k : ℕ)
    (hk : k ≤ shares.length) (hnd : (shares.map Prod.fst).Nodup) :
    (selectShares shares k).length = k ∧
    ((selectShares shares k).map Prod.fst).Pairwise (· < ·) ∧
    ∀ s ∈ shares, s ∉ selectShares shares k →
      ∀ t ∈ selectShares shares k, t.1 < s.1 :=
  selectShares_spec shares k hk hnd

/-- C6 witness: the fixture with available indices `{1, 2, 3, 6}` and
`k = 3` selects exactly the indices `[1, 2, 3]`. -/
theorem C6_selection_smallest_witness :
    ((selectShares [(6, ⟨4, "213"⟩), (1, ⟨10, "4"⟩), (3, ⟨10, "12"⟩), (2, ⟨2, "111"⟩)] 3).length = 3 ∧
    ((selectShares [(6, ⟨4, "213"⟩), (1, ⟨10, "4"⟩), (3, ⟨10, "12"⟩), (2, ⟨2, "111"⟩)] 3).map
      Prod.fst).Pairwise (· < ·) ∧
    ∀ s ∈ ([(6, ⟨4, "213"⟩), (1, ⟨10, "4"⟩), (3, ⟨10, "12"⟩), (2, ⟨2, "111"⟩)] :
        List (ℤ × Share)),
      s ∉ selectShares [(6, ⟨4, "213"⟩), (1, ⟨10, "4"⟩), (3, ⟨10, "12"⟩), (2, ⟨2, "111"⟩)] 3 →
      ∀ t ∈ selectShares [(6, ⟨4, "213"⟩), (1, ⟨10, "4"⟩), (3, ⟨10, "12"⟩), (2, ⟨2, "111"⟩)] 3,
        t.1 < s.1) ∧
    (selectShares [(6, ⟨4, "213"⟩), (1, ⟨10, "4"⟩), (3, ⟨10, "12"⟩), (2, ⟨2, "111"⟩)] 3).map
      Prod.fst = [1, 2, 3] :=
  ⟨C6_selection_smallest _ 3 (by decide) (by decide), by rfl⟩

/-- C7: if the `i`-th selected share is the first whose encoded value fails
to decode, the whole recovery fails with exactly that share's decode error:
the failure propagates to the request, the share is not skipped, and no
replacement share is substituted. -/
theorem C7_decode_error_propagates (shares : List (ℤ × Share)) (k : ℕ) (i : ℕ)
    (hi : i < (selectShares shares k).length) (e : String)
    (herr : decodeShare ((selectShares shares k).get ⟨i, hi⟩) = Except.error e)
    (hok : ∀ j, ∀ hj : j < i, ∃ v,
      decodeShare ((selectShares shares k).get ⟨j, by omega⟩) = Except.ok v) :
    recoverSecret shares k = Except.error e :=
  recoverSecret_error_of_mapM shares k e
    (mapM_decodeShare_error (selectShares shares k) i hi e herr hok)

/-- C7 witness: share 2 carries the undecodable value `"@"`; the whole
recovery fails with that share's invalid-digit error. -/
theorem C7_decode_error_propagates_witness :
    recoverSecret [(1, ⟨10, "4"⟩), (2, ⟨10, "@"⟩)] 2
      = Except.error "Invalid digit @ for base 10" :=
  C7_decode_error_propagates [(1, ⟨10, "4"⟩), (2, ⟨10, "@"⟩)] 2 1 (by decide)
    "Invalid digit @ for base 10" (by rfl)
    (fun j hj => by
      have hj0 : j = 0 := by omega
      subst hj0
      exact ⟨4, by rfl⟩)

/-- C8 counterexample: for the prime 5 and the pairwise-distinct x values
`1, 2, 6` with y values `1, 1, 1`, permuting the points changes the result:
the original order yields `some 2`, swapping the last two points yields
`some (-3)`. -/
theorem C8_counterexample :
    Nat.Prime 5 ∧
    (([(1, 1), (2, 1), (6, 1)] : List (ℤ × ℤ)).Perm [(1, 1), (6, 1), (2, 1)]) ∧
    lagrangeInterpolateBigInt [1, 2, 6] [1, 1, 1] 0 5 = some 2 ∧
    lagrangeInterpolateBigInt [1, 6, 2] [1, 1, 1] 0 5 = some (-3) ∧
    some (2 : ℤ) ≠ some (-3 : ℤ) :=
  ⟨by norm_num, by decide, by decide, by decide, by decide⟩

/-- C8 (amended): with the pairwise-distinct x values additionally
normalized into `[0, p)` and nonnegative y values, permuting the `k` points
does not change the value of `lagrangeInterpolateBigInt` at target 0. -/
theorem C8_perm_invariant (p : ℕ) (hp : p.Prime) (xs ys xs2 ys2 : List ℤ)
    (hlen : ys.length = xs.length) (hlen2 : ys2.length = xs2.length)
    (hperm : (xs.zip ys).Perm (xs2.zip ys2))
    (hx : ∀ x ∈ xs, 0 ≤ x ∧ x < (p : ℤ))
    (hnd : xs.Pairwise (· ≠ ·))
    (hy : ∀ y ∈ ys, 0 ≤ y) :
    lagrangeInterpolateBigInt xs2 ys2 0 (p : ℤ) = lagrangeInterpolateBigInt xs ys 0 (p : ℤ) := by
  haveI : Fact p.Prime := ⟨hp⟩
  have hfst : (xs.zip ys).map Prod.fst = xs := List.map_fst_zip xs ys (by omega)
  have hsnd : (xs.zip ys).map Prod.snd = ys := List.map_snd_zip xs ys (by omega)
  have hfst2 : (xs2.zip ys2).map Prod.fst = xs2 := List.map_fst_zip xs2 ys2 (by omega)
  have hsnd2 : (xs2.zip ys2).map Prod.snd = ys2 := List.map_snd_zip xs2 ys2 (by omega)
  have hxsperm : xs.Perm xs2 := by
    have h := hperm.map Prod.fst
    rwa [hfst, hfst2] at h
  have hysperm : ys.Perm ys2 := by
    have h := hperm.map Prod.snd
    rwa [hsnd, hsnd2] at h
  have hx2 : ∀ x ∈ xs2, 0 ≤ x ∧ x < (p : ℤ) := fun x hx2 => hx x (hxsperm.mem_iff.mpr hx2)
  have hy2 : ∀ y ∈ ys2, 0 ≤ y := fun y hy2 => hy y (hysperm.mem_iff.mpr hy2)
  have hnd2 : xs2.Pairwise (· ≠ ·) :=
    (hxsperm.pairwise_iff (fun h => Ne.symm h)).mp hnd
  obtain ⟨Q, hQdeg, hQev⟩ := exists_interpolant p hp xs ys hx hnd
  have hlen12 : xs2.length = xs.length := hxsperm.length_eq.symm
  have hQev2 : ∀ i, i < xs2.length →
      Q.eval ((xs2.getD i 0 : ℤ) : ZMod p) = ((ys2.getD i 0 : ℤ) : ZMod p) := by
    intro i hi
    have hizip : i < (xs2.zip ys2).length := by
      rw [List.length_zip]
      omega
    have hpair : (xs2.getD i 0, ys2.getD i 0) ∈ xs2.zip ys2 := by
      have hget : (xs2.zip ys2).get ⟨i, hizip⟩ = (xs2.getD i 0, ys2.getD i 0) := by
        rw [List.get_eq_getElem, List.getElem_zip,
          List.getD_eq_getElem xs2 0 hi, List.getD_eq_getElem ys2 0 (by omega)]
      rw [← hget]
      exact List.get_mem _ _ hizip
    have hmem : (xs2.getD i 0, ys2.getD i 0) ∈ xs.zip ys := hperm.mem_iff.mpr hpair
    obtain ⟨j, hj, hjeq⟩ := List.getElem_of_mem hmem
    have hjlen : j < xs.length := by
      rw [List.length_zip] at hj
      omega
    have hjx : xs.getD j 0 = xs2.getD i 0 := by
      rw [List.getD_eq_getElem xs 0 hjlen]
      have := congrArg Prod.fst hjeq
      rwa [List.getElem_zip] at this
    have hjy : ys.getD j 0 = ys2.getD i 0 := by
      rw [List.getD_eq_getElem ys 0 (by omega)]
      have := congrArg Prod.snd hjeq
      rwa [List.getElem_zip] at this
    rw [← hjx, ← hjy]
    exact hQev j hjlen
  have h1 := lagrange_eval_poly p hp xs ys hx hnd hy hlen Q hQdeg hQev
  have h2 := lagrange_eval_poly p hp xs2 ys2 hx2 hnd2 hy2 hlen2 Q
    (by rw [hlen12]; exact hQdeg) hQev2
  rw [h1, h2]

/-- C8 witness: swapping two in-range points leaves the result unchanged. -/
theorem C8_perm_invariant_witness :
    lagrangeInterpolateBigInt [2, 1] [4, 3] 0 ((7 : ℕ) : ℤ)
      = lagrangeInterpolateBigInt [1, 2] [3, 4] 0 ((7 : ℕ) : ℤ) :=
  C8_perm_invariant 7 (by norm_num) [1, 2] [3, 4] [2, 1] [4, 3]
    (by decide) (by decide) (by decide) (by decide) (by decide) (by decide)

end Hashira
